import Mathlib

/-!
Verification development for the Tipitaka documentation builder
(`src/python/db/build.py` and `src/python/db/build_tree.py`).

Python strings are embedded as `List Char` (named `Str`).  The external
Aksharamukha transliteration engine (`transliterate.process`) is embedded as a
parameter `f : String → String → Str → Except ε Str`: an arbitrary, possibly
failing function from (source script name, target script name, text) to text;
`Except.error` models the call raising an exception.  The output tree produced
by the materializers is embedded as an association list from paths
(lists of path components) to file contents; a lookup returns the most
recently written binding, which models overwriting a file.
-/

namespace Tipitaka

/-- Python strings, embedded as lists of characters. -/
abbrev Str := List Char

/-- Coerce a Lean string literal to the embedding of Python strings. -/
def lc (s : String) : Str := s.data

/-- The ASCII whitespace characters stripped by Python `str.strip()`. -/
def isPyWs (c : Char) : Bool :=
  c = ' ' || c = '\t' || c = '\n' || c = '\r' || c = '\x0B' || c = '\x0C'

/-- Python `str.strip()`: remove leading and trailing whitespace. -/
def pyStrip (s : Str) : Str :=
  ((s.dropWhile isPyWs).reverse.dropWhile isPyWs).reverse

/-- Worker for Python `str.replace` with a non-empty needle `p :: ps`:
replace every non-overlapping occurrence, scanning left to right.  The fuel
argument only forces structural termination; every step consumes at least one
character of the subject string, so fuel `s.length` (as supplied by
`pyReplace`) is never exhausted. -/
def replGo (p : Char) (ps rep : Str) : Nat → Str → Str
  | _, [] => []
  | 0, s => s
  | fuel + 1, c :: rest =>
    if (p :: ps).isPrefixOf (c :: rest) then
      rep ++ replGo p ps rep fuel (rest.drop ps.length)
    else
      c :: replGo p ps rep fuel rest

/-- Python `str.replace(pat, rep)`.  The callers in the source
(`apply_text_corrections`) only invoke it with a non-empty `pat`; the empty
case returns the string unchanged. -/
def pyReplace (s pat rep : Str) : Str :=
  match pat with
  | [] => s
  | p :: ps => replGo p ps rep s.length s

/-- One correction rule of the transliteration configuration
(Python dict with keys `from` / `to`; `from` is a Lean keyword, hence
`fromS` / `toS`). -/
structure Correction where
  fromS : Str
  toS : Str
deriving DecidableEq

/-- One entry of `self.transliteration_config` (keys `code`, `from`, `to`,
`correction`). -/
structure TransConfig where
  code : String
  fromName : String
  toName : String
  correction : List Correction
deriving DecidableEq

/-- `self.transliteration_config` from `_setup_configuration` (identical in
`build.py` and `build_tree.py`). -/
def transliteration_config : List TransConfig :=
  [⟨"romn", "Burmese", "IASTPali", [⟨lc "..", lc "."⟩]⟩,
   ⟨"thai", "Burmese", "Thai", [⟨lc "ึ", lc "ิํ"⟩, ⟨lc "๚", lc "."⟩]⟩,
   ⟨"deva", "Burmese", "Devanagari", [⟨lc "..", lc "."⟩]⟩,
   ⟨"khmr", "Burmese", "Khmer", [⟨lc "៕", lc "."⟩]⟩,
   ⟨"lana", "Burmese", "TaiTham", [⟨lc "᪩", lc "."⟩]⟩,
   ⟨"laoo", "Burmese", "LaoPali", [⟨lc "ຯຯ", lc "."⟩]⟩,
   ⟨"sinh", "Burmese", "Sinhala", [⟨lc "..", lc "."⟩]⟩]

/-- `get_transliteration_config`: first configuration whose `code` equals the
requested script code, if any (Python `next(..., None)` over a generator). -/
def get_transliteration_config (sc : String) : Option TransConfig :=
  transliteration_config.find? (fun cfg => cfg.code == sc)

/-- `convert_text_with_aksharamukha`: return the text unchanged when it is
empty or whitespace-only; otherwise call the external engine `f` and fall back
to the original text when the call fails (the Python `try`/`except` that logs
a warning and returns `text`). -/
def convert_text_with_aksharamukha {ε : Type} (f : String → String → Str → Except ε Str)
    (text : Str) (origName targetName : String) : Str :=
  if text = [] then text
  else if pyStrip text = [] then text
  else
    match f origName targetName text with
    | Except.ok converted => converted
    | Except.error _ => text

/-- `apply_text_corrections`: fold the correction rules over the text in list
order, skipping rules with an empty `from` field. -/
def apply_text_corrections (text : Str) (corrections : List Correction) : Str :=
  if text = [] ∨ corrections = [] then text
  else
    corrections.foldl
      (fun acc corr => if corr.fromS ≠ [] then pyReplace acc corr.fromS corr.toS else acc)
      text

/-- Position class relevant to the lookbehind of the text-span regex in
`convert_html_content`: at the very start of the subject, right after a `>`,
or anywhere else. -/
inductive ScanState where
  | start
  | afterGt
  | other
deriving DecidableEq

/-- Characters a text-span match `[^<]+` may contain. -/
def nonTag (c : Char) : Bool := !(c == '<')

/-- The scanning position after consuming a matched run: the regex engine
resumes with a lookbehind at the run's last character. -/
def stateAfter (run : Str) : ScanState :=
  match run.getLast? with
  | some '>' => ScanState.afterGt
  | _ => ScanState.other

/-- The scan performed by `re.sub` in `convert_html_content` with pattern
`(?<=>)[^<]+(?=<)|(?<=>)[^<]+$|^[^<]+(?=<)`: a maximal run of non-`<`
characters is passed to `conv` when it is preceded by `>` (and then either
followed by `<` or extends to the end), or when it starts the subject and is
followed by `<`; every other character is copied and scanning advances one
position. -/
def scanHtml (conv : Str → Str) : ScanState → Str → Str
  | _, [] => []
  | st, c :: rest =>
    if c = '<' then '<' :: scanHtml conv ScanState.other rest
    else
      match st with
      | ScanState.afterGt =>
        conv (c :: rest.takeWhile nonTag) ++
          scanHtml conv (stateAfter (c :: rest.takeWhile nonTag)) (rest.dropWhile nonTag)
      | ScanState.start =>
        if rest.any (fun x => x == '<') then
          conv (c :: rest.takeWhile nonTag) ++
            scanHtml conv (stateAfter (c :: rest.takeWhile nonTag)) (rest.dropWhile nonTag)
        else c :: scanHtml conv (if c = '>' then ScanState.afterGt else ScanState.other) rest
      | ScanState.other =>
        c :: scanHtml conv (if c = '>' then ScanState.afterGt else ScanState.other) rest
termination_by _ s => s.length
decreasing_by
  all_goals simp only [List.length_cons]
  all_goals first
    | exact Nat.lt_succ_of_le (List.dropWhile_sublist _).length_le
    | omega

/-- The replacement callback `convert_text_match` inside
`convert_html_content`: whitespace-only spans are returned verbatim, other
spans are transliterated and then corrected. -/
def convMatchOf {ε : Type} (f : String → String → Str → Except ε Str)
    (cfg : TransConfig) : Str → Str :=
  fun textContent =>
    if pyStrip textContent = [] then textContent
    else
      apply_text_corrections
        (convert_text_with_aksharamukha f textContent cfg.fromName cfg.toName)
        cfg.correction

/-- `convert_html_content`: identity on empty input and on the native script
code `mymr`, identity when no transliteration configuration exists for the
script code, otherwise the regex substitution over the whole input.  (The
surrounding Python `try`/`except` cannot fire in this embedding because every
ingredient is total.) -/
def convert_html_content {ε : Type} (f : String → String → Str → Except ε Str)
    (html : Str) (sc : String) : Str :=
  if html = [] ∨ sc = "mymr" then html
  else
    match get_transliteration_config sc with
    | none => html
    | some cfg => scanHtml (convMatchOf f cfg) ScanState.start html

/-! ## TOC hierarchy resolver (`build_tree.py`, `build_hierarchical_structure`) -/

/-- One row of the `tocs` table (fields used by the resolver, plus the
`book_id` foreign key). -/
structure Toc where
  book_id : Int
  name : Str
  type : String
  page_number : Int
deriving DecidableEq

/-- The fixed five-level `type_hierarchy` list. -/
def type_hierarchy : List String :=
  ["chapter", "title", "subhead", "subsubhead", "subsubhead-head"]

/-- Index of the first occurrence of `x` in a list (Python `list.index`,
partialized to `Option`). -/
def indexInList (x : String) : List String → Option Nat
  | [] => none
  | y :: ys => if y = x then some 0 else (indexInList x ys).map (· + 1)

/-- The hierarchy level of a TOC type: its index in `type_hierarchy`, or
`none` for an unrecognized type (`if toc_type in type_hierarchy`). -/
def levelOf (t : String) : Option Nat := indexInList t type_hierarchy

/-- One element of the running `current_path`: the dict
`{'type', 'name', 'page', 'counter', 'level'}`. -/
structure Seg where
  type : String
  name : Str
  page : Int
  counter : Nat
  level : Nat
deriving DecidableEq

/-- One element of the resolver's output `structure` list: the dict
`{'toc', 'path', 'counter'}`. -/
structure HItem where
  toc : Toc
  path : List Seg
  counter : Nat
deriving DecidableEq

/-- The mutable loop state of `build_hierarchical_structure`: the
`level_counters` dict (read only at levels `0..4`, the indices produced by
`levelOf`) and the running `current_path`. -/
structure RState where
  counters : Nat → Nat
  path : List Seg

/-- The counter update performed for an entry at level `L`: counters at
strictly deeper levels are reset to `0`, the counter at `L` is incremented,
counters at shallower levels are untouched. -/
def stepCounters (cnt : Nat → Nat) (L : Nat) : Nat → Nat :=
  fun L2 => if L2 = L then cnt L + 1 else if L < L2 then 0 else cnt L2

/-- The loop of `build_hierarchical_structure` over the TOC rows, threading
the state explicitly.  Entries with an unrecognized type are dropped; a
recognized entry at level `L` updates the counters, truncates the running
path to length `L`, appends a new segment, and emits the entry together with
a copy of the path and the entry's counter. -/
def runItems (s : RState) : List Toc → List HItem
  | [] => []
  | t :: ts =>
    match levelOf t.type with
    | none => runItems s ts
    | some L =>
      ⟨t, s.path.take L ++ [⟨t.type, t.name, t.page_number, s.counters L + 1, L⟩],
          s.counters L + 1⟩ ::
        runItems
          ⟨stepCounters s.counters L,
            s.path.take L ++ [⟨t.type, t.name, t.page_number, s.counters L + 1, L⟩]⟩ ts

/-- The value of `level_counters[L]` after processing a sequence of emitted
items, given in reverse order: the number of level-`L` items emitted since
the last item at a level shallower than `L`. -/
def cntR (L : Nat) : List HItem → Nat
  | [] => 0
  | e :: r =>
    match levelOf e.toc.type with
    | none => cntR L r
    | some Le => if Le < L then 0 else if Le = L then cntR L r + 1 else cntR L r

/-- `build_hierarchical_structure`: all counters start at `0` and the running
path starts empty. -/
def build_hierarchical_structure (tocs : List Toc) : List HItem :=
  runItems ⟨fun _ => 0, []⟩ tocs

/-! ## Legacy inline-TOC parser (`build.py`, `parse_book_chapters`) -/

/-- Worker for Python `str.split(sep)` with non-empty separator `p :: ps`.
The fuel argument only forces structural termination; every step consumes at
least one character, so fuel `s.length` (as supplied by `splitOnSub`) is
never exhausted. -/
def splitGo (p : Char) (ps : Str) : Nat → Str → List Str
  | _, [] => [[]]
  | 0, s => [s]
  | fuel + 1, c :: rest =>
    if (p :: ps).isPrefixOf (c :: rest) then
      [] :: splitGo p ps fuel (rest.drop ps.length)
    else
      match splitGo p ps fuel rest with
      | [] => [[c]]
      | h :: t => (c :: h) :: t

/-- Python `str.split(sep)` for a non-empty separator (the callers split on
`"\n"` and `"->"`). -/
def splitOnSub (sep s : Str) : List Str :=
  match sep with
  | [] => [s]
  | p :: ps => splitGo p ps s.length s

/-- Decimal digits with optional single interspersed underscores, as accepted
by Python `int()` after the sign: must start and end with a digit. -/
def digitsVal : Nat → Str → Option Nat
  | acc, [] => some acc
  | acc, '_' :: c :: rest =>
    if c.isDigit then digitsVal (acc * 10 + (c.toNat - '0'.toNat)) rest else none
  | _, ['_'] => none
  | acc, c :: rest =>
    if c.isDigit then digitsVal (acc * 10 + (c.toNat - '0'.toNat)) rest else none

/-- Python `int(s)`: strip whitespace, optional sign, then a non-empty digit
sequence (single underscores between digits allowed); `none` models the
`ValueError` raised on any other input. -/
def pyInt (s : Str) : Option Int :=
  match pyStrip s with
  | '+' :: c :: rest =>
    if c.isDigit then (digitsVal 0 (c :: rest)).map Int.ofNat else none
  | '-' :: c :: rest =>
    if c.isDigit then (digitsVal 0 (c :: rest)).map (fun n => -(Int.ofNat n)) else none
  | c :: rest =>
    if c.isDigit then (digitsVal 0 (c :: rest)).map Int.ofNat else none
  | [] => none

/-- One parsed chapter dict `{"name", "page"}`. -/
structure Chapter where
  name : Str
  page : Int
deriving DecidableEq

instance : Inhabited Chapter := ⟨⟨[], 0⟩⟩

/-- The loop body of `parse_book_chapters` over the lines: a line whose
stripped form starts with `chapter->` and splits on `->` into at least three
fields yields a chapter whose page is `int(parts[2])` — and aborts the whole
parse (Python `ValueError`) when that field is not an integer literal.  Every
other line is skipped. -/
def parseChapterLines : List Str → Except Unit (List Chapter)
  | [] => Except.ok []
  | line :: rest =>
    let st := pyStrip line
    if (lc "chapter->").isPrefixOf st then
      let parts := splitOnSub (lc "->") st
      if parts.length ≥ 3 then
        match pyInt (parts.getD 2 []) with
        | some n => (parseChapterLines rest).map (fun cs => ⟨parts.getD 1 [], n⟩ :: cs)
        | none => Except.error ()
      else parseChapterLines rest
    else parseChapterLines rest

/-- `parse_book_chapters`: empty (or missing) `book.toc` yields no chapters;
otherwise the field is split on newlines and each line processed in order. -/
def parse_book_chapters (book_toc : Str) : Except Unit (List Chapter) :=
  if book_toc = [] then Except.ok []
  else parseChapterLines (splitOnSub (lc "\n") book_toc)

/-- The per-line classification used to state what a successful parse
returns: `some` chapter for a line matching the full chapter grammar
(including an integer page field), `none` otherwise. -/
def chapterOfLine (line : Str) : Option Chapter :=
  let st := pyStrip line
  if (lc "chapter->").isPrefixOf st then
    let parts := splitOnSub (lc "->") st
    if parts.length ≥ 3 then
      (pyInt (parts.getD 2 [])).map (fun n => ⟨parts.getD 1 [], n⟩)
    else none
  else none

/-- A line on which `parse_book_chapters` raises: it passes the prefix and
arity checks but its third field is not an integer literal. -/
def poisonLine (line : Str) : Prop :=
  let st := pyStrip line
  (lc "chapter->").isPrefixOf st = true ∧
    (splitOnSub (lc "->") st).length ≥ 3 ∧
    pyInt ((splitOnSub (lc "->") st).getD 2 []) = none

instance (line : Str) : Decidable (poisonLine line) := by
  unfold poisonLine
  exact inferInstance

/-! ## Output tree model

Only the written documents are modelled (directories carry no content and
`mkdir` is create-if-missing in the source).  The tree is an association
list from paths to contents; `fsWrite` prepends, so `fsLookup` (first match)
returns the most recent write, which models `open(..., 'w')` overwriting. -/

/-- A path in the output tree: list of path components from the root. -/
abbrev FPath := List String

/-- The output tree: bindings from paths to file contents, newest first. -/
abbrev FS := List (FPath × Str)

/-- Content of the file at `p`, `none` if it was never written. -/
def fsLookup (p : FPath) : FS → Option Str
  | [] => none
  | (q, c) :: rest => if q = p then some c else fsLookup p rest

/-- Write (or overwrite) the file at `p`. -/
def fsWrite (p : FPath) (c : Str) (fs : FS) : FS := (p, c) :: fs

/-! ## Hierarchical materializer (`build_tree.py`, `create_hierarchical_files`) -/

/-- Python `sep.join(parts)`. -/
def joinSep (sep : Str) : List Str → Str
  | [] => []
  | [x] => x
  | x :: xs => x ++ sep ++ joinSep sep xs

/-- The `parent_info` string: the ancestor names joined by `" > "`, or the
book abbreviation when there is no ancestor yet. -/
def parentInfo (parents : List Str) (bookAbbr : Str) : Str :=
  if parents = [] then bookAbbr else joinSep (lc " > ") parents

/-- `self.content_template.format(name, order, parent, page)` from
`build_tree.py`. -/
def contentTemplate (name : Str) (order : Nat) (parent : Str) (page : Int) : Str :=
  lc "---\ntitle: " ++ name ++ lc "\nsidebar: \n    order: " ++ lc (toString order) ++
    lc "\nparent: " ++ parent ++ lc "\npage: " ++ lc (toString page) ++
    lc "\n---\n\n# " ++ name ++ lc "\n\nหน้า " ++ lc (toString page) ++ lc "\n"

/-- The per-segment name conversion inside `create_hierarchical_files`:
convert unless the script is the native `mymr` or has no configuration. -/
def convertSegName {ε : Type} (f : String → String → Str → Except ε Str)
    (sc : String) (name : Str) : Str :=
  if sc ≠ "mymr" then
    match get_transliteration_config sc with
    | some cfg =>
      apply_text_corrections (convert_text_with_aksharamukha f name cfg.fromName cfg.toName)
        cfg.correction
    | none => name
  else name

/-- The index-document paths the inner loop of `create_hierarchical_files`
visits for one item's path parts, starting from `curDir`: one directory level
per segment, named by the segment's counter. -/
def visitedParts (curDir : FPath) : List Seg → List FPath
  | [] => []
  | part :: rest =>
    ((curDir ++ [toString part.counter]) ++ ["index.md"]) ::
      visitedParts (curDir ++ [toString part.counter]) rest

/-- The inner loop of `create_hierarchical_files` over one item's path parts:
descend one directory per segment, and create the segment's `index.md` only
if it does not already exist (first writer wins); the segment's converted
name joins the parent-label context for deeper segments. -/
def processParts {ε : Type} (f : String → String → Str → Except ε Str)
    (sc : String) (bookAbbr : Str) :
    FS → FPath → List Str → List Seg → FS
  | fs, _, _, [] => fs
  | fs, curDir, parents, part :: rest =>
    let dir := curDir ++ [toString part.counter]
    let convName := convertSegName f sc part.name
    let idxPath := dir ++ ["index.md"]
    let fs2 :=
      if fsLookup idxPath fs = none then
        fsWrite idxPath
          (contentTemplate convName part.counter (parentInfo parents bookAbbr) part.page) fs
      else fs
    processParts f sc bookAbbr fs2 dir (parents ++ [convName]) rest

/-- `create_hierarchical_files`: process every emitted item in order; an item
with an empty path contributes nothing (`if not path_parts: continue`). -/
def create_hierarchical_files {ε : Type} (f : String → String → Str → Except ε Str)
    (fs : FS) (items : List HItem) (bookPath : FPath) (bookAbbr : Str) (sc : String) : FS :=
  items.foldl (fun acc it => processParts f sc bookAbbr acc bookPath [] it.path) fs

/-- All index-document paths visited by one run of
`create_hierarchical_files` (independent of the tree state). -/
def visitedAll (bookPath : FPath) (items : List HItem) : List FPath :=
  (items.map (fun it => visitedParts bookPath it.path)).flatten

/-! ## Chapter/page materializer (`build.py`, `create_chapter_files`) -/

/-- One row of the `pages` table (fields used by `create_chapter_files`).
`content` and `paranum` are empty when the database field is null. -/
structure PageRec where
  bookid : Int
  page : Int
  content : Str
  paranum : Str
deriving DecidableEq

/-- Insert a page into a page-number-sorted list (helper for the
`orderby=self.db.pages.page` clause of `get_chapter_pages`). -/
def insertByPage (p : PageRec) : List PageRec → List PageRec
  | [] => [p]
  | q :: rest => if p.page ≤ q.page then p :: q :: rest else q :: insertByPage p rest

/-- Sort pages ascending by page number. -/
def sortByPage : List PageRec → List PageRec
  | [] => []
  | p :: rest => insertByPage p (sortByPage rest)

/-- `get_chapter_pages`: the pages of the book whose page number lies in
`[startP, endP)`, ordered by page number.  (`create_chapter_files` always
passes a concrete exclusive end page.) -/
def get_chapter_pages (bookId startP endP : Int) (pagesDb : List PageRec) : List PageRec :=
  sortByPage (pagesDb.filter
    (fun p => p.bookid == bookId && decide (startP ≤ p.page) && decide (p.page < endP)))

/-- The page-file name `f"page-{page.page}.md"`. -/
def pageFileName (page : Int) : String := "page-" ++ toString page ++ ".md"

/-- `self.page_template.format(...)` from `build.py`.  (`page.paranum or ""`
is the identity on the embedding, where a null field is the empty string.) -/
def pageTemplate (chapterName : Str) (pageNum : Int) (order : Nat) (paranum : Str)
    (content : Str) : Str :=
  lc "---\ntitle: \"" ++ chapterName ++ lc " - หน้า " ++ lc (toString pageNum) ++
    lc "\"\nsidebar: \n    order: " ++ lc (toString order) ++
    lc "\npage: " ++ lc (toString pageNum) ++ lc "\nparanum: " ++ paranum ++
    lc "\n---\n\n# " ++ chapterName ++ lc "\n## หน้า " ++ lc (toString pageNum) ++
    lc "\n\n" ++ content ++ lc "\n"

/-- The per-page loop of `create_chapter_files` (the per-page unit variant):
`n` is the 1-based `enumerate` counter; a page with empty content is skipped,
any other page gets one file named after its page number, written
unconditionally. -/
def createPageFiles {ε : Type} (f : String → String → Str → Except ε Str)
    (fs : FS) (chapterDir : FPath) (chapterName : Str) (sc : String) :
    Nat → List PageRec → FS
  | _, [] => fs
  | n, page :: rest =>
    let fs2 :=
      if page.content ≠ [] then
        fsWrite (chapterDir ++ [pageFileName page.page])
          (pageTemplate chapterName page.page n page.paranum
            (convert_html_content f page.content sc)) fs
      else fs
    createPageFiles f fs2 chapterDir chapterName sc (n + 1) rest

/-- The exclusive end page of the chapter whose successors are `rest`: the
next chapter's start page, or `book_lastpage + 1` for the final chapter. -/
def chapterEnd (rest : List Chapter) (bookLastpage : Int) : Int :=
  match rest with
  | [] => bookLastpage + 1
  | c2 :: _ => c2.page

/-- The chapter ranges computed by the loop of `create_chapter_files`
(the spec's `computeChapterRanges`): start page and exclusive end page of
each chapter, in order. -/
def chapterRanges (chapters : List Chapter) (bookLastpage : Int) : List (Int × Int) :=
  match chapters with
  | [] => []
  | ch :: rest => (ch.page, chapterEnd rest bookLastpage) :: chapterRanges rest bookLastpage

/-- The `f"""..."""` chapter index document written by
`create_chapter_files`. -/
def chapterIndexContent (name : Str) (idx : Nat) (pageRange : Str) (numPages : Nat)
    (startP endP : Int) : Str :=
  lc "---\ntitle: " ++ name ++ lc "\nsidebar: \n    order: " ++ lc (toString idx) ++
    lc "\npage: " ++ pageRange ++ lc "\n---\n\n# " ++ name ++
    lc "\n\nบทนี้มี " ++ lc (toString numPages) ++ lc " หน้า (หน้า " ++
    lc (toString startP) ++ lc "-" ++ lc (toString (endP - 1)) ++ lc ")\n\n"

/-- The `page_range` front-matter string of the chapter index. -/
def pageRangeLabel (startP endP : Int) : Str :=
  if startP ≠ endP - 1 then lc (toString startP) ++ lc "-" ++ lc (toString (endP - 1))
  else lc (toString startP)

/-- The loop of `create_chapter_files` over chapters, with the 1-based
`enumerate` counter `idx`: compute the chapter's page range, fetch its pages,
write the chapter's `index.md` unconditionally (`open(..., 'w')`), then write
the individual page files. -/
def createChaptersGo {ε : Type} (f : String → String → Str → Except ε Str)
    (bookPath : FPath) (bookId bookLastpage : Int) (sc : String)
    (pagesDb : List PageRec) : FS → Nat → List Chapter → FS
  | fs, _, [] => fs
  | fs, idx, ch :: rest =>
    let startP := ch.page
    let endP := chapterEnd rest bookLastpage
    let pages := get_chapter_pages bookId startP endP pagesDb
    let chapterDir := bookPath ++ [toString idx]
    let fs2 := fsWrite (chapterDir ++ ["index.md"])
      (chapterIndexContent ch.name idx (pageRangeLabel startP endP) pages.length startP endP) fs
    let fs3 := createPageFiles f fs2 chapterDir ch.name sc 1 pages
    createChaptersGo f bookPath bookId bookLastpage sc pagesDb fs3 (idx + 1) rest

/-- `create_chapter_files` (directory creation is create-if-missing and not
modelled; only the written documents are). -/
def create_chapter_files {ε : Type} (f : String → String → Str → Except ε Str)
    (fs : FS) (bookPath : FPath) (chapters : List Chapter) (bookId bookLastpage : Int)
    (sc : String) (pagesDb : List PageRec) : FS :=
  createChaptersGo f bookPath bookId bookLastpage sc pagesDb fs 1 chapters

/-- A concrete always-failing transliteration engine, used by witnesses and
counterexamples to instantiate the external-engine parameter. -/
def failTranslit : String → String → Str → Except Unit Str :=
  fun _ _ _ => Except.error ()

/-! ## Theorems -/

/-- Helper: `parseChapterLines` succeeds and returns exactly the chapters of
the matching lines whenever no line passes the prefix and arity checks with a
non-integer page field. -/
theorem parseChapterLines_eq (lines : List Str) (h : ∀ l ∈ lines, ¬ poisonLine l) :
    parseChapterLines lines = Except.ok (lines.filterMap chapterOfLine) := by
  induction lines with
  | nil => rfl
  | cons line rest ih =>
    have hrest : ∀ l ∈ rest, ¬ poisonLine l := fun l hl => h l (List.mem_cons_of_mem _ hl)
    have hline := h line (List.mem_cons_self _ _)
    by_cases hp : (lc "chapter->").isPrefixOf (pyStrip line) = true
    · by_cases hlen : (splitOnSub (lc "->") (pyStrip line)).length ≥ 3
      · cases hint : pyInt ((splitOnSub (lc "->") (pyStrip line)).getD 2 []) with
        | none => exact absurd ⟨hp, hlen, hint⟩ hline
        | some n =>
          simp only [parseChapterLines, chapterOfLine, hp, if_true, hlen, if_pos, hint,
            List.filterMap_cons, Option.map_some', ih hrest, Except.map]
      · simp only [parseChapterLines, chapterOfLine, hp, if_true, hlen, if_false,
          List.filterMap_cons, ih hrest]
    · simp only [Bool.not_eq_true] at hp
      have hco : chapterOfLine line = none := by
        simp only [chapterOfLine, hp, Bool.false_eq_true, if_false]
      simp only [parseChapterLines, hp, Bool.false_eq_true, if_false,
        List.filterMap_cons, hco, ih hrest]

/-- C5: the claim that `parse_book_chapters` never fails is wrong: a line
that starts with `chapter->` and has at least three `->`-separated fields
but a non-integer third field makes `int(parts[2])` raise a `ValueError`.
Concrete failing input: the single line `chapter->X->abc`. -/
theorem C5_counterexample :
    parse_book_chapters (lc "chapter->X->abc") = Except.error () := rfl

/-- C5 (amended): `parse_book_chapters` succeeds — emitting one chapter
`{name, page}` per line that starts with `chapter->` and splits on `->` into
at least three fields, and silently ignoring every other line — provided no
line passes the prefix and arity checks with a third field that is not an
integer literal; such a line instead makes the parser raise. -/
theorem C5_parse_amended (toc : Str)
    (h : ∀ line ∈ splitOnSub (lc "\n") toc, ¬ poisonLine line) :
    parse_book_chapters toc = Except.ok ((splitOnSub (lc "\n") toc).filterMap chapterOfLine) := by
  by_cases h0 : toc = []
  · subst h0; rfl
  · unfold parse_book_chapters
    rw [if_neg h0]
    exact parseChapterLines_eq _ h

/-- C5 witness: a concrete two-chapter TOC with one junk line parses to the
two matching chapters. -/
theorem C5_witness :
    (∀ line ∈ splitOnSub (lc "\n") (lc "chapter->A->5\nx\nchapter->B->10"), ¬ poisonLine line) ∧
    ((splitOnSub (lc "\n") (lc "chapter->A->5\nx\nchapter->B->10")).filterMap chapterOfLine =
      [⟨lc "A", 5⟩, ⟨lc "B", 10⟩]) ∧
    parse_book_chapters (lc "chapter->A->5\nx\nchapter->B->10") =
      Except.ok ((splitOnSub (lc "\n") (lc "chapter->A->5\nx\nchapter->B->10")).filterMap
        chapterOfLine) :=
  ⟨by decide, by decide, C5_parse_amended (lc "chapter->A->5\nx\nchapter->B->10") (by decide)⟩

/-- C6: for every behaviour of the external transliteration engine `f`
(including failure with an arbitrary exception value), `convert_text_with_aksharamukha`
totally returns a string: either the successfully transliterated text or the
original input unchanged; and whenever the engine fails it is exactly the
original input. -/
theorem C6_convert_text_never_fails {ε : Type} (f : String → String → Str → Except ε Str)
    (origName targetName : String) (text : Str) :
    (convert_text_with_aksharamukha f text origName targetName = text ∨
      f origName targetName text =
        Except.ok (convert_text_with_aksharamukha f text origName targetName)) ∧
    (∀ e, f origName targetName text = Except.error e →
      convert_text_with_aksharamukha f text origName targetName = text) := by
  unfold convert_text_with_aksharamukha
  by_cases h1 : text = []
  · simp [h1]
  · by_cases h2 : pyStrip text = []
    · simp [h1, h2]
    · cases hf : f origName targetName text with
      | ok c => simp [h1, h2, hf]
      | error e => simp [h1, h2, hf]

/-- C6 witness: with an engine that always raises, the original text comes
back unchanged. -/
theorem C6_witness :
    failTranslit "Burmese" "Thai" (lc "x") = Except.error () ∧
    convert_text_with_aksharamukha failTranslit (lc "x") "Burmese" "Thai" = lc "x" :=
  ⟨rfl, (C6_convert_text_never_fails failTranslit "Burmese" "Thai" (lc "x")).2 () rfl⟩

/-- Helper: the range list has one range per chapter. -/
theorem chapterRanges_length (chapters : List Chapter) (lp : Int) :
    (chapterRanges chapters lp).length = chapters.length := by
  induction chapters with
  | nil => rfl
  | cons ch rest ih => simp [chapterRanges, ih]

/-- C7: chapter `i` ranges from its own start page to the next chapter's
start page (exclusive), the final chapter to `book_lastpage + 1`; the spec's
example `[1, 50, 120]` with last page `200` yields `[1,50), [50,120),
[120,201)`. -/
theorem C7_chapter_ranges :
    (∀ (chapters : List Chapter) (lp : Int) (i : Nat), i < chapters.length →
      (chapterRanges chapters lp).length = chapters.length ∧
      (i + 1 < chapters.length →
        (chapterRanges chapters lp).getD i (0, 0) =
          ((chapters.getD i default).page, (chapters.getD (i + 1) default).page)) ∧
      (i + 1 = chapters.length →
        (chapterRanges chapters lp).getD i (0, 0) = ((chapters.getD i default).page, lp + 1))) ∧
    chapterRanges [⟨lc "A", 1⟩, ⟨lc "B", 50⟩, ⟨lc "C", 120⟩] 200 =
      [(1, 50), (50, 120), (120, 201)] := by
  constructor
  · intro chapters lp i
    induction chapters generalizing i with
    | nil => intro hi; exact absurd hi (by simp)
    | cons ch rest ih =>
      intro _
      refine ⟨chapterRanges_length _ _, ?_, ?_⟩
      · intro hi1
        match i with
        | 0 =>
          match rest with
          | [] => simp at hi1
          | c2 :: rest2 => simp [chapterRanges, chapterEnd]
        | i + 1 =>
          have h2 : i + 1 < rest.length := by simpa using hi1
          have hi' : i < rest.length := by omega
          simpa [chapterRanges] using (ih i hi').2.1 h2
      · intro hi1
        match i with
        | 0 =>
          have : rest = [] := by
            cases rest with
            | nil => rfl
            | cons a b => simp at hi1
          subst this
          simp [chapterRanges, chapterEnd]
        | i + 1 =>
          have hi' : i < rest.length := by
            have := hi1
            simp only [List.length_cons] at this
            omega
          simpa [chapterRanges] using (ih i hi').2.2 (by simpa using hi1)
  · rfl

/-- C7 witness: the middle chapter of the spec example ends exactly where
the next one starts. -/
theorem C7_witness :
    (1 : Nat) < ([⟨lc "A", 1⟩, ⟨lc "B", 50⟩, ⟨lc "C", 120⟩] : List Chapter).length ∧
    (chapterRanges [⟨lc "A", 1⟩, ⟨lc "B", 50⟩, ⟨lc "C", 120⟩] 200).getD 1 (0, 0) = (50, 120) :=
  ⟨by decide,
    (C7_chapter_ranges.1 [⟨lc "A", 1⟩, ⟨lc "B", 50⟩, ⟨lc "C", 120⟩] 200 1 (by decide)).2.1
      (by decide)⟩

/-- C9: `convert_html_content` is the identity for the native script code
`mymr`, for every input and every engine behaviour. -/
theorem C9_native_identity {ε : Type} (f : String → String → Str → Except ε Str)
    (html : Str) : convert_html_content f html "mymr" = html := by
  unfold convert_html_content
  simp

/-- C10: for every script code with no entry in `transliteration_config` —
not only the native `mymr`, which is short-circuited separately, but any
unrecognized code — `convert_html_content` returns its input unchanged
instead of raising. -/
theorem C10_unknown_script_identity {ε : Type} (sc : String)
    (h : get_transliteration_config sc = none)
    (f : String → String → Str → Except ε Str) (html : Str) :
    convert_html_content f html sc = html := by
  unfold convert_html_content
  by_cases h1 : html = [] ∨ sc = "mymr"
  · simp [h1]
  · simp [h1, h]

/-- C10 witness: the unknown code `zzzz` degrades to the identity. -/
theorem C10_witness :
    get_transliteration_config "zzzz" = none ∧
    convert_html_content failTranslit (lc "<p>hi</p>") "zzzz" = lc "<p>hi</p>" :=
  ⟨rfl, C10_unknown_script_identity "zzzz" rfl failTranslit (lc "<p>hi</p>")⟩

/-! ### Resolver helper lemmas -/

/-- Helper: the first emitted item's path has length
`min L (initial path length) + 1`. -/
theorem runItems_head_path_len :
    ∀ (ts : List Toc) (s : RState) (i : HItem) (B : List HItem) (L : Nat),
      runItems s ts = i :: B → levelOf i.toc.type = some L →
      i.path.length = min L s.path.length + 1 := by
  intro ts
  induction ts with
  | nil =>
    intro s i B L h _
    simp [runItems] at h
  | cons t ts ih =>
    intro s i B L h hl
    cases hlt : levelOf t.type with
    | none =>
      simp only [runItems, hlt] at h
      exact ih _ i B L h hl
    | some L0 =>
      simp only [runItems, hlt] at h
      obtain ⟨h1, -⟩ := List.cons.injEq .. ▸ h
      subst h1
      simp only at hl
      rw [hlt] at hl
      obtain rfl : L0 = L := Option.some.injEq .. ▸ hl
      simp [List.length_take]

/-- Helper: each later emitted item's path has length `min L p + 1` where `p`
is the length of the immediately preceding emitted item's path. -/
theorem runItems_adjacent_path_len :
    ∀ (ts : List Toc) (s : RState) (A : List HItem) (i j : HItem) (B : List HItem) (L : Nat),
      runItems s ts = A ++ i :: j :: B → levelOf j.toc.type = some L →
      j.path.length = min L i.path.length + 1 := by
  intro ts
  induction ts with
  | nil =>
    intro s A i j B L h _
    simp [runItems] at h
  | cons t ts ih =>
    intro s A i j B L h hl
    cases hlt : levelOf t.type with
    | none =>
      simp only [runItems, hlt] at h
      exact ih _ A i j B L h hl
    | some L0 =>
      simp only [runItems, hlt] at h
      cases A with
      | nil =>
        simp only [List.nil_append] at h
        obtain ⟨h1, h2⟩ := List.cons.injEq .. ▸ h
        have := runItems_head_path_len ts _ j B L h2 hl
        rw [this, ← h1]
      | cons a A2 =>
        simp only [List.cons_append] at h
        obtain ⟨-, h2⟩ := List.cons.injEq .. ▸ h
        exact ih _ A2 i j B L h2 hl

/-- Helper: `cntR` at level `L` increments on an item at level `L`. -/
theorem cntR_cons_eq (L : Nat) (i : HItem) (X : List HItem)
    (h : levelOf i.toc.type = some L) : cntR L (i :: X) = cntR L X + 1 := by
  simp [cntR, h]

/-- Helper: `cntR` at level `L` is `0` right after an item at a shallower
level. -/
theorem cntR_cons_lt (L Li : Nat) (i : HItem) (X : List HItem)
    (h : levelOf i.toc.type = some Li) (hlt : Li < L) : cntR L (i :: X) = 0 := by
  simp [cntR, h, hlt]

/-- Helper: items at strictly deeper levels do not affect `cntR` at `L`. -/
theorem cntR_append_deeper (L : Nat) (Bs X : List HItem)
    (h : ∀ b ∈ Bs, ∀ Lb, levelOf b.toc.type = some Lb → L < Lb) :
    cntR L (Bs ++ X) = cntR L X := by
  induction Bs with
  | nil => rfl
  | cons b Bs2 ih =>
    have hb := h b (List.mem_cons_self _ _)
    have hrest : ∀ x ∈ Bs2, ∀ Lb, levelOf x.toc.type = some Lb → L < Lb :=
      fun x hx => h x (List.mem_cons_of_mem _ hx)
    cases hbl : levelOf b.toc.type with
    | none => simp only [List.cons_append, cntR, hbl]; exact ih hrest
    | some Lb =>
      have hdeep := hb Lb hbl
      simp only [List.cons_append, cntR, hbl]
      rw [if_neg (by omega), if_neg (by omega)]
      exact ih hrest

/-- Helper: every emitted item's counter is the `cntR` value of the emitted
prefix up to and including that item (appended, in reverse, to the reversed
pre-history `rev` that the initial counters describe). -/
theorem runItems_counter_char :
    ∀ (ts : List Toc) (s : RState) (rev : List HItem),
      (∀ L, s.counters L = cntR L rev) →
      ∀ (A : List HItem) (i : HItem) (B : List HItem), runItems s ts = A ++ i :: B →
      ∀ L, levelOf i.toc.type = some L → i.counter = cntR L (i :: (A.reverse ++ rev)) := by
  intro ts
  induction ts with
  | nil =>
    intro s rev _ A i B h L _
    simp [runItems] at h
  | cons t ts ih =>
    intro s rev hs A i B h L hl
    cases hlt : levelOf t.type with
    | none =>
      simp only [runItems, hlt] at h
      exact ih _ rev hs A i B h L hl
    | some L0 =>
      simp only [runItems, hlt] at h
      cases A with
      | nil =>
        simp only [List.nil_append] at h
        obtain ⟨h1, -⟩ := List.cons.injEq .. ▸ h
        subst h1
        simp only at hl ⊢
        rw [hlt] at hl
        obtain rfl : L0 = L := Option.some.injEq .. ▸ hl
        simp only [List.reverse_nil, List.nil_append]
        rw [cntR_cons_eq _ _ rev (by simpa using hlt), ← hs _]
      | cons a A2 =>
        simp only [List.cons_append] at h
        obtain ⟨ha, h2⟩ := List.cons.injEq .. ▸ h
        have hs2 : ∀ L2,
            (stepCounters s.counters L0) L2 =
              cntR L2 (⟨t, s.path.take L0 ++
                [⟨t.type, t.name, t.page_number, s.counters L0 + 1, L0⟩],
                s.counters L0 + 1⟩ :: rev) := by
          intro L2
          simp only [stepCounters, cntR, hlt]
          by_cases he : L2 = L0
          · subst he
            rw [if_pos rfl, if_neg (by omega), if_pos rfl, hs L2]
          · rw [if_neg he]
            by_cases hgt : L0 < L2
            · rw [if_pos hgt, if_pos (by omega)]
            · rw [if_neg hgt, if_neg (by omega), if_neg (by omega), hs L2]
        have := ih _ _ hs2 A2 i B h2 L hl
        rw [this, ← ha]
        simp [List.append_assoc]

/-! ### C1 -/

/-- C1 counterexample: a TOC sequence that starts below the top level emits a
path shorter than `level + 1`.  The single entry of type `title` has level 1,
yet its emitted path has length 1, not 2. -/
theorem C1_counterexample :
    build_hierarchical_structure [⟨1, lc "X", "title", 1⟩] =
      [⟨⟨1, lc "X", "title", 1⟩, [⟨"title", lc "X", 1, 1, 1⟩], 1⟩] ∧
    levelOf "title" = some 1 ∧
    ([⟨"title", lc "X", (1 : Int), 1, 1⟩] : List Seg).length ≠ 1 + 1 := by
  refine ⟨by decide, by decide, by decide⟩

/-- C1 (amended): an emitted path's length is `min(level, previous emitted
path's length) + 1` — `1` for the first emitted entry — hence always at most
`level + 1`, with equality exactly when the previously emitted path already
reached the entry's level (so the original claim holds for TOC sequences that
never skip a level downward, such as ones starting with a `chapter`). -/
theorem C1_path_lengths :
    (∀ (tocs : List Toc) (i : HItem) (B : List HItem) (L : Nat),
      build_hierarchical_structure tocs = i :: B → levelOf i.toc.type = some L →
      i.path.length = 1 ∧ i.path.length ≤ L + 1) ∧
    (∀ (tocs : List Toc) (A : List HItem) (i j : HItem) (B : List HItem) (L : Nat),
      build_hierarchical_structure tocs = A ++ i :: j :: B → levelOf j.toc.type = some L →
      j.path.length = min L i.path.length + 1 ∧ j.path.length ≤ L + 1 ∧
        (L ≤ i.path.length → j.path.length = L + 1)) := by
  constructor
  · intro tocs i B L h hl
    have := runItems_head_path_len tocs _ i B L h hl
    simp only [List.length_nil, Nat.min_zero] at this
    omega
  · intro tocs A i j B L h hl
    have := runItems_adjacent_path_len tocs _ A i j B L h hl
    refine ⟨this, ?_, ?_⟩
    · rw [this]
      omega
    · intro hle
      rw [this, Nat.min_eq_left hle]

/-- C1 witness: in the spec's example sequence the `title` entry following
the `chapter` entry gets a path of length `level + 1 = 2`. -/
theorem C1_witness :
    build_hierarchical_structure
        [⟨1, lc "A", "chapter", 1⟩, ⟨1, lc "X", "title", 1⟩,
         ⟨1, lc "Y", "title", 5⟩, ⟨1, lc "B", "chapter", 10⟩] =
      [] ++ ⟨⟨1, lc "A", "chapter", 1⟩, [⟨"chapter", lc "A", 1, 1, 0⟩], 1⟩ ::
        ⟨⟨1, lc "X", "title", 1⟩,
          [⟨"chapter", lc "A", 1, 1, 0⟩, ⟨"title", lc "X", 1, 1, 1⟩], 1⟩ ::
        [⟨⟨1, lc "Y", "title", 5⟩,
            [⟨"chapter", lc "A", 1, 1, 0⟩, ⟨"title", lc "Y", 5, 2, 1⟩], 2⟩,
         ⟨⟨1, lc "B", "chapter", 10⟩, [⟨"chapter", lc "B", 10, 2, 0⟩], 2⟩] ∧
    ([⟨"chapter", lc "A", (1 : Int), 1, 0⟩, ⟨"title", lc "X", 1, 1, 1⟩] : List Seg).length =
      1 + 1 :=
  ⟨by decide,
    (C1_path_lengths.2
        [⟨1, lc "A", "chapter", 1⟩, ⟨1, lc "X", "title", 1⟩,
         ⟨1, lc "Y", "title", 5⟩, ⟨1, lc "B", "chapter", 10⟩]
        []
        ⟨⟨1, lc "A", "chapter", 1⟩, [⟨"chapter", lc "A", 1, 1, 0⟩], 1⟩
        ⟨⟨1, lc "X", "title", 1⟩,
          [⟨"chapter", lc "A", 1, 1, 0⟩, ⟨"title", lc "X", 1, 1, 1⟩], 1⟩
        [⟨⟨1, lc "Y", "title", 5⟩,
            [⟨"chapter", lc "A", 1, 1, 0⟩, ⟨"title", lc "Y", 5, 2, 1⟩], 2⟩,
         ⟨⟨1, lc "B", "chapter", 10⟩, [⟨"chapter", lc "B", 10, 2, 0⟩], 2⟩]
        1 (by decide) (by decide)).2.2 (by decide)⟩

/-! ### C2 -/

/-- C2: counters of consecutive emitted entries at the same level with only
deeper entries in between increase by exactly 1; the first entry at a level
emitted after a shallower entry (again with only deeper entries in between)
has counter 1; and the counter update for an entry at level `L` zeroes every
strictly deeper level, leaves every shallower level unchanged, and increments
level `L` itself. -/
theorem C2_level_counters :
    (∀ (tocs : List Toc) (A : List HItem) (i : HItem) (B : List HItem) (j : HItem)
        (C : List HItem) (L : Nat),
      build_hierarchical_structure tocs = A ++ i :: (B ++ j :: C) →
      levelOf i.toc.type = some L → levelOf j.toc.type = some L →
      (∀ b ∈ B, ∀ Lb, levelOf b.toc.type = some Lb → L < Lb) →
      j.counter = i.counter + 1) ∧
    (∀ (tocs : List Toc) (A : List HItem) (i : HItem) (B : List HItem) (j : HItem)
        (C : List HItem) (L Li : Nat),
      build_hierarchical_structure tocs = A ++ i :: (B ++ j :: C) →
      levelOf i.toc.type = some Li → Li < L → levelOf j.toc.type = some L →
      (∀ b ∈ B, ∀ Lb, levelOf b.toc.type = some Lb → L < Lb) →
      j.counter = 1) ∧
    (∀ (cnt : Nat → Nat) (L L2 : Nat),
      (L < L2 → stepCounters cnt L L2 = 0) ∧
      (L2 < L → stepCounters cnt L L2 = cnt L2) ∧
      stepCounters cnt L L = cnt L + 1) := by
  have init : ∀ L, (fun _ => (0 : Nat)) L = cntR L [] := fun _ => rfl
  refine ⟨?_, ?_, ?_⟩
  · intro tocs A i B j C L h hi hj hB
    have h2 : build_hierarchical_structure tocs = (A ++ i :: B) ++ j :: C := by
      rw [h]; simp
    have hjc := runItems_counter_char tocs _ [] init (A ++ i :: B) j C h2 L hj
    have hic := runItems_counter_char tocs _ [] init A i (B ++ j :: C) h L hi
    rw [List.append_nil] at hjc hic
    rw [hjc, cntR_cons_eq L j _ hj]
    have hrev : (A ++ i :: B).reverse = B.reverse ++ (i :: A.reverse) := by simp
    rw [hrev, cntR_append_deeper L B.reverse (i :: A.reverse)
      (fun b hb => hB b (by simpa using hb)), ← hic]
  · intro tocs A i B j C L Li h hi hlt hj hB
    have h2 : build_hierarchical_structure tocs = (A ++ i :: B) ++ j :: C := by
      rw [h]; simp
    have hjc := runItems_counter_char tocs _ [] init (A ++ i :: B) j C h2 L hj
    rw [List.append_nil] at hjc
    rw [hjc, cntR_cons_eq L j _ hj]
    have hrev : (A ++ i :: B).reverse = B.reverse ++ (i :: A.reverse) := by simp
    rw [hrev, cntR_append_deeper L B.reverse (i :: A.reverse)
      (fun b hb => hB b (by simpa using hb)), cntR_cons_lt L Li i _ hi hlt]
  · intro cnt L L2
    refine ⟨?_, ?_, ?_⟩
    · intro hlt
      simp only [stepCounters]
      rw [if_neg (by omega), if_pos hlt]
    · intro hlt
      simp only [stepCounters]
      rw [if_neg (by omega), if_neg (by omega)]
    · simp [stepCounters]

/-- C2 witness: in the spec's example sequence the second `title` entry has
counter 2, one more than the first. -/
theorem C2_witness :
    build_hierarchical_structure
        [⟨1, lc "A", "chapter", 1⟩, ⟨1, lc "X", "title", 1⟩,
         ⟨1, lc "Y", "title", 5⟩, ⟨1, lc "B", "chapter", 10⟩] =
      [⟨⟨1, lc "A", "chapter", 1⟩, [⟨"chapter", lc "A", 1, 1, 0⟩], 1⟩] ++
        ⟨⟨1, lc "X", "title", 1⟩,
          [⟨"chapter", lc "A", 1, 1, 0⟩, ⟨"title", lc "X", 1, 1, 1⟩], 1⟩ ::
        ([] ++ ⟨⟨1, lc "Y", "title", 5⟩,
            [⟨"chapter", lc "A", 1, 1, 0⟩, ⟨"title", lc "Y", 5, 2, 1⟩], 2⟩ ::
          [⟨⟨1, lc "B", "chapter", 10⟩, [⟨"chapter", lc "B", 10, 2, 0⟩], 2⟩]) ∧
    (⟨⟨1, lc "Y", "title", 5⟩,
        [⟨"chapter", lc "A", 1, 1, 0⟩, ⟨"title", lc "Y", 5, 2, 1⟩], 2⟩ : HItem).counter =
      (⟨⟨1, lc "X", "title", 1⟩,
        [⟨"chapter", lc "A", 1, 1, 0⟩, ⟨"title", lc "X", 1, 1, 1⟩], 1⟩ : HItem).counter + 1 :=
  ⟨by decide,
    C2_level_counters.1
      [⟨1, lc "A", "chapter", 1⟩, ⟨1, lc "X", "title", 1⟩,
       ⟨1, lc "Y", "title", 5⟩, ⟨1, lc "B", "chapter", 10⟩]
      [⟨⟨1, lc "A", "chapter", 1⟩, [⟨"chapter", lc "A", 1, 1, 0⟩], 1⟩]
      ⟨⟨1, lc "X", "title", 1⟩,
        [⟨"chapter", lc "A", 1, 1, 0⟩, ⟨"title", lc "X", 1, 1, 1⟩], 1⟩
      []
      ⟨⟨1, lc "Y", "title", 5⟩,
        [⟨"chapter", lc "A", 1, 1, 0⟩, ⟨"title", lc "Y", 5, 2, 1⟩], 2⟩
      [⟨⟨1, lc "B", "chapter", 10⟩, [⟨"chapter", lc "B", 10, 2, 0⟩], 2⟩]
      1 (by decide) (by decide) (by decide) (by decide)⟩

/-! ### Output-tree helper lemmas -/

/-- Helper: writing at a different path does not change a lookup. -/
theorem fsLookup_write_ne (p q : FPath) (c : Str) (fs : FS) (h : q ≠ p) :
    fsLookup p (fsWrite q c fs) = fsLookup p fs := by
  simp [fsWrite, fsLookup, h]

/-- Helper: the inner loop of `create_hierarchical_files` never changes an
existing binding (create-if-missing only). -/
theorem processParts_preserves {ε : Type} (f : String → String → Str → Except ε Str)
    (sc : String) (bookAbbr : Str) :
    ∀ (parts : List Seg) (fs : FS) (curDir : FPath) (parents : List Str) (p : FPath) (c : Str),
      fsLookup p fs = some c →
      fsLookup p (processParts f sc bookAbbr fs curDir parents parts) = some c := by
  intro parts
  induction parts with
  | nil => intro fs curDir parents p c h; exact h
  | cons part rest ih =>
    intro fs curDir parents p c h
    simp only [processParts]
    by_cases hex : fsLookup ((curDir ++ [toString part.counter]) ++ ["index.md"]) fs = none
    · rw [if_pos hex]
      have hne : (curDir ++ [toString part.counter]) ++ ["index.md"] ≠ p := by
        intro he
        rw [he, h] at hex
        exact Option.noConfusion hex
      exact ih _ _ _ p c (by rw [fsLookup_write_ne _ _ _ _ hne]; exact h)
    · rw [if_neg hex]
      exact ih _ _ _ p c h

/-- Helper: `create_hierarchical_files` never changes an existing binding. -/
theorem create_hierarchical_files_preserves {ε : Type}
    (f : String → String → Str → Except ε Str) (bookPath : FPath) (bookAbbr : Str)
    (sc : String) :
    ∀ (items : List HItem) (fs : FS) (p : FPath) (c : Str),
      fsLookup p fs = some c →
      fsLookup p (create_hierarchical_files f fs items bookPath bookAbbr sc) = some c := by
  intro items
  induction items with
  | nil => intro fs p c h; exact h
  | cons it rest ih =>
    intro fs p c h
    exact ih _ p c (processParts_preserves f sc bookAbbr it.path fs bookPath [] p c h)

/-- Helper: after the inner loop every visited index document exists. -/
theorem processParts_visited {ε : Type} (f : String → String → Str → Except ε Str)
    (sc : String) (bookAbbr : Str) :
    ∀ (parts : List Seg) (fs : FS) (curDir : FPath) (parents : List Str) (q : FPath),
      q ∈ visitedParts curDir parts →
      fsLookup q (processParts f sc bookAbbr fs curDir parents parts) ≠ none := by
  intro parts
  induction parts with
  | nil => intro fs curDir parents q hq; simp [visitedParts] at hq
  | cons part rest ih =>
    intro fs curDir parents q hq
    simp only [visitedParts, List.mem_cons] at hq
    simp only [processParts]
    rcases hq with hq | hq
    · subst hq
      set idxPath := (curDir ++ [toString part.counter]) ++ ["index.md"] with hidx
      by_cases hex : fsLookup idxPath fs = none
      · rw [if_pos hex]
        have hw : fsLookup idxPath
            (fsWrite idxPath
              (contentTemplate (convertSegName f sc part.name) part.counter
                (parentInfo parents bookAbbr) part.page) fs) =
            some (contentTemplate (convertSegName f sc part.name) part.counter
              (parentInfo parents bookAbbr) part.page) := by
          simp [fsWrite, fsLookup]
        rw [processParts_preserves f sc bookAbbr rest _ _ _ idxPath _ hw]
        exact Option.noConfusion
      · rw [if_neg hex]
        obtain ⟨c, hc⟩ := Option.ne_none_iff_exists'.mp hex
        rw [processParts_preserves f sc bookAbbr rest _ _ _ idxPath c hc]
        exact Option.noConfusion
    · by_cases hex : fsLookup ((curDir ++ [toString part.counter]) ++ ["index.md"]) fs = none
      · rw [if_pos hex]
        exact ih _ _ _ q hq
      · rw [if_neg hex]
        exact ih _ _ _ q hq

/-- Helper: after a full run every visited index document exists. -/
theorem create_hierarchical_files_visited {ε : Type}
    (f : String → String → Str → Except ε Str) (bookPath : FPath) (bookAbbr : Str)
    (sc : String) :
    ∀ (items : List HItem) (fs : FS) (q : FPath), q ∈ visitedAll bookPath items →
      fsLookup q (create_hierarchical_files f fs items bookPath bookAbbr sc) ≠ none := by
  intro items
  induction items with
  | nil => intro fs q hq; simp [visitedAll] at hq
  | cons it rest ih =>
    intro fs q hq
    simp only [visitedAll, List.map_cons, List.flatten_cons, List.mem_append] at hq
    rcases hq with hq | hq
    · have h1 := processParts_visited f sc bookAbbr it.path fs bookPath [] q hq
      obtain ⟨c, hc⟩ := Option.ne_none_iff_exists'.mp h1
      have h2 := create_hierarchical_files_preserves f bookPath bookAbbr sc rest _ q c hc
      show fsLookup q
          (create_hierarchical_files f (processParts f sc bookAbbr fs bookPath [] it.path)
            rest bookPath bookAbbr sc) ≠ none
      rw [h2]
      exact Option.noConfusion
    · exact ih _ q (by simpa [visitedAll] using hq)

/-- Helper: the inner loop is the identity when every visited index document
already exists. -/
theorem processParts_stable {ε : Type} (f : String → String → Str → Except ε Str)
    (sc : String) (bookAbbr : Str) :
    ∀ (parts : List Seg) (fs : FS) (curDir : FPath) (parents : List Str),
      (∀ q ∈ visitedParts curDir parts, fsLookup q fs ≠ none) →
      processParts f sc bookAbbr fs curDir parents parts = fs := by
  intro parts
  induction parts with
  | nil => intro fs curDir parents _; rfl
  | cons part rest ih =>
    intro fs curDir parents h
    have hhead := h ((curDir ++ [toString part.counter]) ++ ["index.md"])
      (by simp [visitedParts])
    simp only [processParts]
    rw [if_neg hhead]
    refine ih _ _ _ ?_
    intro q hq
    refine h q ?_
    simp only [visitedParts, List.mem_cons]
    exact Or.inr hq

/-- Helper: a full run is the identity when every visited index document
already exists. -/
theorem create_hierarchical_files_stable {ε : Type}
    (f : String → String → Str → Except ε Str) (bookPath : FPath) (bookAbbr : Str)
    (sc : String) :
    ∀ (items : List HItem) (fs : FS),
      (∀ q ∈ visitedAll bookPath items, fsLookup q fs ≠ none) →
      create_hierarchical_files f fs items bookPath bookAbbr sc = fs := by
  intro items
  induction items with
  | nil => intro fs _; rfl
  | cons it rest ih =>
    intro fs h
    have h1 : processParts f sc bookAbbr fs bookPath [] it.path = fs :=
      processParts_stable f sc bookAbbr it.path fs bookPath []
        (fun q hq => h q (by simp [visitedAll, hq]))
    show create_hierarchical_files f (processParts f sc bookAbbr fs bookPath [] it.path)
        rest bookPath bookAbbr sc = fs
    rw [h1]
    exact ih fs (fun q hq => h q (by simp [visitedAll]; right; simpa [visitedAll] using hq))

/-! ### C3 -/

/-- C3 counterexample: the chapter materializer `create_chapter_files`
(`build.py`) opens `index.md` with mode `'w'` unconditionally, so an index
document pre-seeded with content `X` is overwritten — first-writer-wins
fails for it. -/
theorem C3_counterexample :
    fsLookup ["b", "1", "index.md"] [(["b", "1", "index.md"], lc "X")] = some (lc "X") ∧
    fsLookup ["b", "1", "index.md"]
      (create_chapter_files failTranslit [(["b", "1", "index.md"], lc "X")] ["b"]
        [⟨lc "A", 1⟩] 7 1 "mymr" []) ≠ some (lc "X") := by
  refine ⟨by decide, by decide⟩

/-- C3 (amended): first-writer-wins and idempotence hold for the hierarchical
materializer `create_hierarchical_files` (`build_tree.py`): an index document
that exists when materialization reaches it — pre-seeded with arbitrary
content or written earlier — keeps its content byte for byte, and a second
run over the same resolved paths changes nothing at all.  The chapter
materializer `create_chapter_files` (`build.py`) instead overwrites its index
documents unconditionally. -/
theorem C3_first_writer_wins :
    (∀ (ε : Type) (f : String → String → Str → Except ε Str) (fs : FS) (items : List HItem)
        (bookPath : FPath) (bookAbbr : Str) (sc : String) (p : FPath) (c : Str),
      fsLookup p fs = some c →
      fsLookup p (create_hierarchical_files f fs items bookPath bookAbbr sc) = some c) ∧
    (∀ (ε : Type) (f : String → String → Str → Except ε Str) (fs : FS) (items : List HItem)
        (bookPath : FPath) (bookAbbr : Str) (sc : String),
      create_hierarchical_files f
          (create_hierarchical_files f fs items bookPath bookAbbr sc)
          items bookPath bookAbbr sc =
        create_hierarchical_files f fs items bookPath bookAbbr sc) := by
  constructor
  · intro ε f fs items bookPath bookAbbr sc p c h
    exact create_hierarchical_files_preserves f bookPath bookAbbr sc items fs p c h
  · intro ε f fs items bookPath bookAbbr sc
    exact create_hierarchical_files_stable f bookPath bookAbbr sc items _
      (fun q hq => create_hierarchical_files_visited f bookPath bookAbbr sc items fs q hq)

/-- C3 witness: a pre-seeded index document survives a hierarchical
materialization pass over it. -/
theorem C3_witness :
    fsLookup ["r", "1", "index.md"] [(["r", "1", "index.md"], lc "KEEP")] = some (lc "KEEP") ∧
    fsLookup ["r", "1", "index.md"]
      (create_hierarchical_files failTranslit [(["r", "1", "index.md"], lc "KEEP")]
        [⟨⟨1, lc "A", "chapter", 1⟩, [⟨"chapter", lc "A", 1, 1, 0⟩], 1⟩]
        ["r"] (lc "bk") "mymr") = some (lc "KEEP") :=
  ⟨by decide,
    C3_first_writer_wins.1 Unit failTranslit [(["r", "1", "index.md"], lc "KEEP")]
      [⟨⟨1, lc "A", "chapter", 1⟩, [⟨"chapter", lc "A", 1, 1, 0⟩], 1⟩]
      ["r"] (lc "bk") "mymr" ["r", "1", "index.md"] (lc "KEEP") (by decide)⟩

/-! ### C4 -/

/-- Helper: page-file writes at other page names do not change a lookup. -/
theorem createPageFiles_other {ε : Type} (f : String → String → Str → Except ε Str)
    (chapterDir : FPath) (chapterName : Str) (sc : String) :
    ∀ (pages : List PageRec) (fs : FS) (n : Nat) (p : FPath),
      (∀ pg ∈ pages, chapterDir ++ [pageFileName pg.page] ≠ p) →
      fsLookup p (createPageFiles f fs chapterDir chapterName sc n pages) = fsLookup p fs := by
  intro pages
  induction pages with
  | nil => intro fs n p _; rfl
  | cons pg rest ih =>
    intro fs n p h
    simp only [createPageFiles]
    by_cases hc : pg.content ≠ []
    · rw [if_pos hc, ih _ _ p (fun x hx => h x (List.mem_cons_of_mem _ hx)),
        fsLookup_write_ne _ _ _ _ (h pg (List.mem_cons_self _ _))]
    · rw [if_neg hc, ih _ _ p (fun x hx => h x (List.mem_cons_of_mem _ hx))]

/-- Helper: the `k`-th page of the per-page loop started at `enumerate`
counter `n` yields (for non-empty content) exactly one page file with order
`n + k`, and (for empty content) no write at its page-file path. -/
theorem createPageFiles_get {ε : Type} (f : String → String → Str → Except ε Str)
    (chapterDir : FPath) (chapterName : Str) (sc : String) :
    ∀ (pages : List PageRec) (n : Nat) (fs : FS) (k : Nat) (hk : k < pages.length),
      (pages.map (fun p => pageFileName p.page)).Nodup →
      ((pages.get ⟨k, hk⟩).content ≠ [] →
        fsLookup (chapterDir ++ [pageFileName (pages.get ⟨k, hk⟩).page])
          (createPageFiles f fs chapterDir chapterName sc n pages) =
          some (pageTemplate chapterName (pages.get ⟨k, hk⟩).page (n + k)
            (pages.get ⟨k, hk⟩).paranum
            (convert_html_content f (pages.get ⟨k, hk⟩).content sc))) ∧
      ((pages.get ⟨k, hk⟩).content = [] →
        fsLookup (chapterDir ++ [pageFileName (pages.get ⟨k, hk⟩).page])
          (createPageFiles f fs chapterDir chapterName sc n pages) =
          fsLookup (chapterDir ++ [pageFileName (pages.get ⟨k, hk⟩).page]) fs) := by
  intro pages
  induction pages with
  | nil => intro n fs k hk; exact absurd hk (by simp)
  | cons pg rest ih =>
    intro n fs k hk hnd
    have hnd2 : (rest.map (fun p => pageFileName p.page)).Nodup :=
      (List.nodup_cons.mp (by simpa using hnd)).2
    have hnotmem : pageFileName pg.page ∉ rest.map (fun p => pageFileName p.page) :=
      (List.nodup_cons.mp (by simpa using hnd)).1
    match k with
    | 0 =>
      simp only [List.get]
      have hother : ∀ x ∈ rest, chapterDir ++ [pageFileName x.page] ≠
          chapterDir ++ [pageFileName pg.page] := by
        intro x hx he
        have : pageFileName x.page = pageFileName pg.page := by
          have := List.append_cancel_left he
          simpa using this
        exact hnotmem (this ▸ List.mem_map_of_mem _ hx)
      constructor
      · intro hc
        simp only [createPageFiles, if_pos hc]
        rw [createPageFiles_other f chapterDir chapterName sc rest _ _ _ hother]
        simp [fsWrite, fsLookup, Nat.add_zero]
      · intro hc
        simp only [createPageFiles, hc]
        rw [if_neg (by simp), createPageFiles_other f chapterDir chapterName sc rest _ _ _ hother]
    | k + 1 =>
      have hk2 : k < rest.length := by simpa using hk
      have hmem : rest.get ⟨k, hk2⟩ ∈ rest := List.get_mem _ _ _
      have htarget : chapterDir ++ [pageFileName pg.page] ≠
          chapterDir ++ [pageFileName (rest.get ⟨k, hk2⟩).page] := by
        intro he
        have : pageFileName pg.page = pageFileName (rest.get ⟨k, hk2⟩).page := by
          have := List.append_cancel_left he
          simpa using this
        exact hnotmem (this ▸ List.mem_map_of_mem _ hmem)
      have ihk := ih (n + 1)
        (if pg.content ≠ [] then
          fsWrite (chapterDir ++ [pageFileName pg.page])
            (pageTemplate chapterName pg.page n pg.paranum
              (convert_html_content f pg.content sc)) fs
        else fs) k hk2 hnd2
      constructor
      · intro hc
        simp only [List.get] at hc ⊢
        simp only [createPageFiles]
        have := ihk.1 hc
        rw [show n + 1 + k = n + (k + 1) by omega] at this
        by_cases hpc : pg.content ≠ []
        · rw [if_pos hpc]
          rw [if_pos hpc] at this
          exact this
        · rw [if_neg hpc]
          rw [if_neg hpc] at this
          exact this
      · intro hc
        simp only [List.get] at hc ⊢
        simp only [createPageFiles]
        have := ihk.2 hc
        by_cases hpc : pg.content ≠ []
        · rw [if_pos hpc]
          rw [if_pos hpc] at this
          rw [this, fsLookup_write_ne _ _ _ _ htarget]
        · rw [if_neg hpc]
          rw [if_neg hpc] at this
          exact this

/-- C4 counterexample: a page whose content is empty is skipped by
`if page.content:` — no page file is emitted for it, contradicting "for each
page of the range exactly one content unit is emitted". -/
theorem C4_counterexample :
    createPageFiles failTranslit [] ["d"] (lc "A") "mymr" 1 [⟨1, 5, [], []⟩] = [] ∧
    pageFileName 5 = "page-5.md" := by
  refine ⟨by decide, by decide⟩

/-- C4 (amended): in the per-page unit variant, each page of the chapter's
page list **with non-empty content** yields exactly one page file, whose
content is the page template embedding the chapter title and the page number,
whose order is the page's 1-based position within the chapter's full page
list (empty-content pages still occupy a position), and whose body is
`convert_html_content` applied to the page's content; a page with empty
content yields no file. -/
theorem C4_page_units (ε : Type) (f : String → String → Str → Except ε Str) (fs : FS)
    (chapterDir : FPath) (chapterName : Str) (sc : String) (pages : List PageRec)
    (k : Nat) (hk : k < pages.length)
    (hnd : (pages.map (fun p => pageFileName p.page)).Nodup) :
    ((pages.get ⟨k, hk⟩).content ≠ [] →
      fsLookup (chapterDir ++ [pageFileName (pages.get ⟨k, hk⟩).page])
        (createPageFiles f fs chapterDir chapterName sc 1 pages) =
        some (pageTemplate chapterName (pages.get ⟨k, hk⟩).page (k + 1)
          (pages.get ⟨k, hk⟩).paranum
          (convert_html_content f (pages.get ⟨k, hk⟩).content sc))) ∧
    ((pages.get ⟨k, hk⟩).content = [] →
      fsLookup (chapterDir ++ [pageFileName (pages.get ⟨k, hk⟩).page])
        (createPageFiles f fs chapterDir chapterName sc 1 pages) =
        fsLookup (chapterDir ++ [pageFileName (pages.get ⟨k, hk⟩).page]) fs) := by
  have := createPageFiles_get f chapterDir chapterName sc pages 1 fs k hk hnd
  rw [show 1 + k = k + 1 by omega] at this
  exact this

/-- C4 witness: a two-page chapter whose second page is empty: the first page
gets its file with order 1, the second gets none. -/
theorem C4_witness :
    (([⟨1, 5, lc "<b>hi</b>", lc "7"⟩, ⟨1, 9, [], []⟩] : List PageRec).map
      (fun p => pageFileName p.page)).Nodup ∧
    fsLookup (["d"] ++ [pageFileName 5])
      (createPageFiles failTranslit [] ["d"] (lc "A") "mymr" 1
        [⟨1, 5, lc "<b>hi</b>", lc "7"⟩, ⟨1, 9, [], []⟩]) =
      some (pageTemplate (lc "A") 5 1 (lc "7")
        (convert_html_content failTranslit (lc "<b>hi</b>") "mymr")) :=
  ⟨by decide,
    (C4_page_units Unit failTranslit [] ["d"] (lc "A") "mymr"
      [⟨1, 5, lc "<b>hi</b>", lc "7"⟩, ⟨1, 9, [], []⟩] 0 (by decide) (by decide)).1
      (by decide)⟩

/-! ### Text helper lemmas for C8 -/

/-- Helper: every character of a prefix is a character of the whole list. -/
theorem isPrefixOf_mem : ∀ (l s : Str), l.isPrefixOf s = true → ∀ x ∈ l, x ∈ s := by
  intro l
  induction l with
  | nil => intro s _ x hx; exact absurd hx (by simp)
  | cons a l2 ih =>
    intro s h x hx
    cases s with
    | nil => simp [List.isPrefixOf] at h
    | cons b s2 =>
      simp only [List.isPrefixOf, Bool.and_eq_true, beq_iff_eq] at h
      obtain ⟨rfl, h2⟩ := h
      rcases List.mem_cons.mp hx with rfl | hx2
      · exact List.mem_cons_self _ _
      · exact List.mem_cons_of_mem _ (ih s2 h2 x hx2)

/-- Helper: replacing a needle that contains a non-whitespace character
leaves a whitespace-only string unchanged. -/
theorem replGo_ws (p : Char) (ps rep : Str) (hx : ∃ c ∈ p :: ps, isPyWs c = false) :
    ∀ (fuel : Nat) (s : Str), (∀ c ∈ s, isPyWs c = true) → replGo p ps rep fuel s = s := by
  intro fuel
  induction fuel with
  | zero =>
    intro s _
    cases s with
    | nil => rfl
    | cons c rest => rfl
  | succ fuel ih =>
    intro s hs
    cases s with
    | nil => rfl
    | cons c rest =>
      simp only [replGo]
      rw [if_neg ?_, ih rest (fun x hxx => hs x (List.mem_cons_of_mem _ hxx))]
      intro hpre
      obtain ⟨x, hxm, hxw⟩ := hx
      have := hs x (isPrefixOf_mem _ _ hpre x hxm)
      rw [this] at hxw
      exact Bool.noConfusion hxw

/-- Helper: `pyReplace` with a needle that contains a non-whitespace
character is the identity on whitespace-only strings. -/
theorem pyReplace_ws (s pat rep : Str) (hs : ∀ c ∈ s, isPyWs c = true)
    (hx : ∃ c ∈ pat, isPyWs c = false) : pyReplace s pat rep = s := by
  cases pat with
  | nil => rfl
  | cons p ps => exact replGo_ws p ps rep hx s.length s hs

/-- Helper: the correction rules of the configured profiles all have a
non-whitespace character in their `from` field. -/
theorem configs_corrections_nonws :
    ∀ cfg ∈ transliteration_config, ∀ corr ∈ cfg.correction,
      ∃ c ∈ corr.fromS, isPyWs c = false := by decide

/-- Helper: corrections whose needles contain non-whitespace characters leave
a whitespace-only string unchanged. -/
theorem apply_text_corrections_ws (s : Str) (corrections : List Correction)
    (hs : ∀ c ∈ s, isPyWs c = true)
    (hc : ∀ corr ∈ corrections, ∃ c ∈ corr.fromS, isPyWs c = false) :
    apply_text_corrections s corrections = s := by
  unfold apply_text_corrections
  by_cases h0 : s = [] ∨ corrections = []
  · rw [if_pos h0]
  · rw [if_neg h0]
    clear h0
    induction corrections with
    | nil => rfl
    | cons corr rest ih =>
      simp only [List.foldl_cons]
      have hstep : (if corr.fromS ≠ [] then pyReplace s corr.fromS corr.toS else s) = s := by
        by_cases hf : corr.fromS ≠ []
        · rw [if_pos hf, pyReplace_ws s _ _ hs (hc corr (List.mem_cons_self _ _))]
        · rw [if_neg hf]
      rw [hstep]
      exact ih (fun c hcc => hc c (List.mem_cons_of_mem _ hcc))

/-- Helper: a predicate holding on the dropped-while suffix holds everywhere
once it holds on the dropped prefix by construction. -/
theorem all_of_dropWhile_all {p : Char → Bool} :
    ∀ (s : Str), (∀ x ∈ s.dropWhile p, p x = true) → ∀ x ∈ s, p x = true := by
  intro s
  induction s with
  | nil => intro _ x hx; exact absurd hx (by simp)
  | cons c rest ih =>
    intro h x hx
    by_cases hpc : p c = true
    · rcases List.mem_cons.mp hx with rfl | hx2
      · exact hpc
      · exact ih (by simpa [List.dropWhile_cons, hpc] using h) x hx2
    · have hd : (c :: rest).dropWhile p = c :: rest := by
        simp [List.dropWhile_cons, hpc]
      rw [hd] at h
      exact h x hx

/-- Helper: a string that strips to nothing is whitespace-only. -/
theorem ws_of_pyStrip_nil (s : Str) (h : pyStrip s = []) : ∀ c ∈ s, isPyWs c = true := by
  unfold pyStrip at h
  rw [List.reverse_eq_nil_iff] at h
  rw [List.dropWhile_eq_nil_iff] at h
  have h2 : ∀ x ∈ s.dropWhile isPyWs, isPyWs x = true := by
    intro x hx
    exact h x (by simpa using hx)
  exact all_of_dropWhile_all s h2

/-- Helper: `takeWhile` passes over a block that satisfies the predicate. -/
theorem takeWhile_append_of_all {p : Char → Bool} :
    ∀ (l r : Str), (∀ c ∈ l, p c = true) → (l ++ r).takeWhile p = l ++ r.takeWhile p := by
  intro l
  induction l with
  | nil => intro r _; rfl
  | cons c rest ih =>
    intro r h
    simp only [List.cons_append, List.takeWhile_cons, h c (List.mem_cons_self _ _), if_true]
    rw [ih r (fun x hx => h x (List.mem_cons_of_mem _ hx))]

/-- Helper: `dropWhile` passes over a block that satisfies the predicate. -/
theorem dropWhile_append_of_all {p : Char → Bool} :
    ∀ (l r : Str), (∀ c ∈ l, p c = true) → (l ++ r).dropWhile p = r.dropWhile p := by
  intro l
  induction l with
  | nil => intro r _; rfl
  | cons c rest ih =>
    intro r h
    simp only [List.cons_append, List.dropWhile_cons, h c (List.mem_cons_self _ _), if_true]
    exact ih r (fun x hx => h x (List.mem_cons_of_mem _ hx))

/-- Helper: the scan ends at the end of the subject. -/
theorem scanHtml_nil (conv : Str → Str) (st : ScanState) : scanHtml conv st [] = [] := by
  rw [scanHtml.eq_def]

/-- Helper: a `<` is copied and scanning continues in the ordinary state. -/
theorem scanHtml_lt (conv : Str → Str) (st : ScanState) (rest : Str) :
    scanHtml conv st ('<' :: rest) = '<' :: scanHtml conv ScanState.other rest := by
  rw [scanHtml.eq_def]
  simp

/-- Helper: in the ordinary state a character that is neither `<` nor `>` is
copied. -/
theorem scanHtml_copy (conv : Str → Str) (c : Char) (rest : Str) (h1 : ¬ c = '<')
    (h2 : ¬ c = '>') :
    scanHtml conv ScanState.other (c :: rest) = c :: scanHtml conv ScanState.other rest := by
  rw [scanHtml.eq_def]
  simp [h1, h2]

/-- Helper: in the ordinary state a `>` is copied and the next position is
right after a `>`. -/
theorem scanHtml_copy_gt (conv : Str → Str) (rest : Str) :
    scanHtml conv ScanState.other ('>' :: rest) = '>' :: scanHtml conv ScanState.afterGt rest := by
  rw [scanHtml.eq_def]
  simp

/-- Helper: right after a `>`, a maximal non-`<` run is converted as one
match and scanning resumes at the run's end. -/
theorem scanHtml_afterGt (conv : Str → Str) (c : Char) (rest : Str) (h : ¬ c = '<') :
    scanHtml conv ScanState.afterGt (c :: rest) =
      conv (c :: rest.takeWhile nonTag) ++
        scanHtml conv (stateAfter (c :: rest.takeWhile nonTag)) (rest.dropWhile nonTag) := by
  rw [scanHtml.eq_def]
  simp [h]

/-- Helper: the scan copies the closing tag `</a>` verbatim from any state. -/
theorem scanHtml_close (conv : Str → Str) (st : ScanState) :
    scanHtml conv st ('<' :: '/' :: 'a' :: '>' :: []) = '<' :: '/' :: 'a' :: '>' :: [] := by
  rw [scanHtml_lt, scanHtml_copy conv '/' _ (by decide) (by decide),
    scanHtml_copy conv 'a' _ (by decide) (by decide), scanHtml_copy_gt, scanHtml_nil]

/-! ### C8 -/

/-- C8: for every configured (hence non-native) script profile and every
engine behaviour, `convert_html_content` maps `<a>TEXT</a>` — with `TEXT`
free of `<` and `>` — to `<a>TEXT2</a>` where `TEXT2` is the transliterated
text followed by the profile's corrections, and the surrounding tags are
unchanged. -/
theorem C8_markup_shape (ε : Type) (f : String → String → Str → Except ε Str)
    (sc : String) (cfg : TransConfig) (hcfg : get_transliteration_config sc = some cfg)
    (TEXT : Str) (hT : ∀ c ∈ TEXT, c ≠ '<' ∧ c ≠ '>') :
    convert_html_content f (lc "<a>" ++ TEXT ++ lc "</a>") sc =
      lc "<a>" ++
        apply_text_corrections (convert_text_with_aksharamukha f TEXT cfg.fromName cfg.toName)
          cfg.correction ++ lc "</a>" := by
  have hmem : cfg ∈ transliteration_config := List.mem_of_find?_eq_some hcfg
  have hmy : sc ≠ "mymr" := by
    intro h
    rw [h] at hcfg
    exact Option.noConfusion ((show get_transliteration_config "mymr" = none by rfl) ▸ hcfg)
  have hstr : lc "<a>" ++ TEXT ++ lc "</a>" =
      '<' :: 'a' :: '>' :: (TEXT ++ ('<' :: '/' :: 'a' :: '>' :: [])) := by
    show (['<', 'a', '>'] ++ TEXT) ++ ['<', '/', 'a', '>'] =
      '<' :: 'a' :: '>' :: (TEXT ++ ('<' :: '/' :: 'a' :: '>' :: []))
    simp
  have hne : ¬ (lc "<a>" ++ TEXT ++ lc "</a>" = [] ∨ sc = "mymr") := by
    rintro (habs | habs)
    · rw [hstr] at habs
      exact List.noConfusion habs
    · exact hmy habs
  have hmid : scanHtml (convMatchOf f cfg) ScanState.afterGt
      (TEXT ++ ('<' :: '/' :: 'a' :: '>' :: [])) =
      apply_text_corrections (convert_text_with_aksharamukha f TEXT cfg.fromName cfg.toName)
        cfg.correction ++ ('<' :: '/' :: 'a' :: '>' :: []) := by
    cases TEXT with
    | nil =>
      rw [List.nil_append, scanHtml_close]
      rw [show convert_text_with_aksharamukha f [] cfg.fromName cfg.toName = [] from rfl]
      rw [show apply_text_corrections [] cfg.correction = [] from rfl]
      rfl
    | cons c t2 =>
      have hc : ¬ c = '<' := (hT c (List.mem_cons_self _ _)).1
      have ht2 : ∀ x ∈ t2, nonTag x = true := by
        intro x hx
        simp only [nonTag, Bool.not_eq_true', beq_eq_false_iff_ne, ne_eq]
        exact (hT x (List.mem_cons_of_mem _ hx)).1
      have htw : (t2 ++ ('<' :: '/' :: 'a' :: '>' :: [])).takeWhile nonTag = t2 := by
        rw [takeWhile_append_of_all t2 _ ht2]
        simp [List.takeWhile_cons, nonTag]
      have hdw : (t2 ++ ('<' :: '/' :: 'a' :: '>' :: [])).dropWhile nonTag =
          '<' :: '/' :: 'a' :: '>' :: [] := by
        rw [dropWhile_append_of_all t2 _ ht2]
        simp [List.dropWhile_cons, nonTag]
      have hconv : convMatchOf f cfg (c :: t2) =
          apply_text_corrections
            (convert_text_with_aksharamukha f (c :: t2) cfg.fromName cfg.toName)
            cfg.correction := by
        unfold convMatchOf
        by_cases hblank : pyStrip (c :: t2) = []
        · rw [if_pos hblank]
          unfold convert_text_with_aksharamukha
          rw [if_neg (by simp), if_pos hblank]
          exact (apply_text_corrections_ws _ _ (ws_of_pyStrip_nil _ hblank)
            (configs_corrections_nonws cfg hmem)).symm
        · rw [if_neg hblank]
      rw [List.cons_append, scanHtml_afterGt _ _ _ hc, htw, hdw, scanHtml_close, hconv]
  have hpre : scanHtml (convMatchOf f cfg) ScanState.start
      ('<' :: 'a' :: '>' :: (TEXT ++ ('<' :: '/' :: 'a' :: '>' :: []))) =
      '<' :: 'a' :: '>' :: scanHtml (convMatchOf f cfg) ScanState.afterGt
        (TEXT ++ ('<' :: '/' :: 'a' :: '>' :: [])) := by
    rw [scanHtml_lt, scanHtml_copy _ 'a' _ (by decide) (by decide), scanHtml_copy_gt]
  unfold convert_html_content
  rw [if_neg hne, hcfg, hstr]
  show scanHtml (convMatchOf f cfg) ScanState.start
      ('<' :: 'a' :: '>' :: (TEXT ++ ['<', '/', 'a', '>'])) = _
  rw [hpre, hmid]
  rw [show lc "<a>" = ['<', 'a', '>'] from rfl, show lc "</a>" = ['<', '/', 'a', '>'] from rfl]
  simp

/-- C8 witness: the `romn` profile applied to `<a>ab</a>` with an engine
that transliterates `ab` to `xy..z`: the corrections then collapse `..` and
the tags are untouched. -/
theorem C8_witness :
    get_transliteration_config "romn" =
      some ⟨"romn", "Burmese", "IASTPali", [⟨lc "..", lc "."⟩]⟩ ∧
    (∀ c ∈ lc "ab", c ≠ '<' ∧ c ≠ '>') ∧
    convert_html_content (fun _ _ _ => (Except.ok (lc "xy..z") : Except Unit Str))
        (lc "<a>" ++ lc "ab" ++ lc "</a>") "romn" =
      lc "<a>" ++
        apply_text_corrections
          (convert_text_with_aksharamukha (fun _ _ _ => (Except.ok (lc "xy..z") : Except Unit Str))
            (lc "ab") "Burmese" "IASTPali")
          [⟨lc "..", lc "."⟩] ++ lc "</a>" :=
  ⟨by decide, by decide,
    C8_markup_shape Unit (fun _ _ _ => (Except.ok (lc "xy..z") : Except Unit Str)) "romn"
      ⟨"romn", "Burmese", "IASTPali", [⟨lc "..", lc "."⟩]⟩ (by decide) (lc "ab") (by decide)⟩

end Tipitaka
